import Mathlib

/-!
Verification development for the script-aggregation tool in
src/process_scripts.py.  Script texts are modelled as `List Char`.
Python regular-expression behaviour is embedded faithfully:

* `remove_shebang` embeds `re.sub(r"^\s*#!.*\n\s*", "", content)`:
  without the MULTILINE flag the anchor matches only at position 0, so at
  most one substitution happens, at the very beginning of the text.

* `remove_set_commands` embeds
  `re.sub(r"^\s*(set -[eux])\n\s*", "", content, flags=re.MULTILINE)`:
  the scanner walks the text position by position; the anchor holds at
  position 0 and right after each newline; at an anchored position the
  pattern greedily consumes whitespace, then exactly `set -e`, `set -u`
  or `set -x` (a single flag character), a newline, and trailing
  whitespace.  Scanning resumes at the end of each match.

* Word-boundary searches (`\bon-linux\b`, `\bapt\b`, `\bpip3?\b`,
  `\byum\b`, `\bbrew\b`, `\bcurl\b`) are embedded by a scanner that
  tracks the previous character.  `\w` is modelled as ASCII
  alphanumerics plus underscore, and `\s` as the six ASCII whitespace
  characters, matching Python on the ASCII texts considered here.

* `pathlib.Path.glob` on a base directory that does not exist or is not
  a directory yields no entries and raises nothing (`_Selector.select_from`
  returns an empty iterator when `parent_path.is_dir()` is false), which
  the path collector model reflects by taking the directory listing as an
  `Option`.
-/

namespace Richwar

/-- ASCII model of Python regex `\s` (space, tab, newline, CR, VT, FF). -/
def isPySpace (c : Char) : Bool :=
  c == ' ' || c == '\t' || c == '\n' || c == '\r' || c == '\x0b' || c == '\x0c'

/-- ASCII model of Python regex `\w` (alphanumerics and underscore). -/
def isWordChar (c : Char) : Bool :=
  c.isAlphanum || c == '_'

/-- True when the list starts with the two characters of a shebang marker. -/
def startsHashBang : List Char → Bool
  | a :: b :: _ => a == '#' && b == '!'
  | _ => false

/-- Embedding of `remove_shebang` (process_scripts.py lines 14-15):
`re.sub(r"^\s*#!.*\n\s*", "", content)`.  The anchored pattern can match
only at position 0: it consumes the maximal leading whitespace run, the
`#!` line up to and including its newline, and the following whitespace
run.  If the leading non-whitespace text does not start with `#!`, or no
newline follows, nothing matches and the text is returned unchanged. -/
def removeShebang (c : List Char) : List Char :=
  let t := c.dropWhile isPySpace
  if startsHashBang t then
    match (t.drop 2).dropWhile (fun x => !(x == '\n')) with
    | '\n' :: rest2 => rest2.dropWhile isPySpace
    | _ => c
  else c

/-- The single flag characters accepted by the character class `[eux]`. -/
def setFlag (c : Char) : Bool :=
  c == 'e' || c == 'u' || c == 'x'

/-- Attempt of the pattern `\s*(set -[eux])\n` at an anchored position:
greedy whitespace, then literally `set -`, one flag character and a
newline.  Returns the remainder after the newline on success. -/
def trySetMatch (l : List Char) : Option (List Char) :=
  match l.dropWhile isPySpace with
  | 's' :: 'e' :: 't' :: ' ' :: '-' :: f :: '\n' :: r =>
    if setFlag f then some r else none
  | _ => none

/-- Remainder after the trailing `\s*` of a successful set-line match. -/
def afterWS (r : List Char) : List Char :=
  r.dropWhile isPySpace

/-- Whether the position after consuming the trailing `\s*` of a match is
again an anchored position: true when nothing was consumed (the previous
character is the pattern's own newline) or the consumed run ends in a
newline. -/
def wsEndsLine (r : List Char) : Bool :=
  match (r.takeWhile isPySpace).getLast? with
  | none => true
  | some c => c == '\n'

/-- Fuel-indexed scanner for the MULTILINE substitution: the Bool records
whether the current position is at the start of a line (where `^`
matches).  At an anchored position a successful pattern match drops the
matched span and continues after it; otherwise one character is copied.
The fuel only serves termination; `removeSetCommands` supplies enough. -/
def rscGo : Nat → Bool → List Char → List Char
  | 0, _, s => s
  | _ + 1, _, [] => []
  | fuel + 1, b, c :: r =>
    if b then
      match trySetMatch (c :: r) with
      | some r2 => rscGo fuel (wsEndsLine r2) (afterWS r2)
      | none => c :: rscGo fuel (c == '\n') r
    else c :: rscGo fuel (c == '\n') r

/-- Scanner entry point with exactly sufficient fuel. -/
def rsc (b : Bool) (s : List Char) : List Char :=
  rscGo s.length b s

/-- Embedding of `remove_set_commands` (process_scripts.py lines 10-11). -/
def removeSetCommands (s : List Char) : List Char :=
  rsc true s

/-- Embedding of `ScriptContentProcessor.process` (lines 22-25) for the
transformer tuple `(remove_shebang, remove_set_commands)` built in `main`
(line 186).  `PreservedScalarString` is a `str` subclass and leaves the
characters unchanged. -/
def processContent (c : List Char) : List Char :=
  removeSetCommands (removeShebang c)

/-- Left word-boundary test of `\bw\b` for a pattern starting with a word
character: satisfied at position 0 or when the previous character is not
a word character. -/
def bOk : Option Char → Bool
  | none => true
  | some c => !(isWordChar c)

/-- Right word-boundary test for a pattern ending in a word character:
satisfied at the end of the text or before a non-word character. -/
def bAfter : List Char → Bool
  | [] => true
  | c :: _ => !(isWordChar c)

/-- If `w` is a literal prefix of `s`, returns the remaining characters. -/
def matchRest : List Char → List Char → Option (List Char)
  | [], s => some s
  | _ :: _, [] => none
  | c :: w, d :: s => if c = d then matchRest w s else none

/-- Position matcher for the literal word `w` followed by `\b`. -/
def atWord (w : List Char) (s : List Char) : Bool :=
  match matchRest w s with
  | some r => bAfter r
  | none => false

/-- Position matcher for `pip3?\b`: the optional `3` is tried greedily,
then without it, exactly as the regex engine backtracks. -/
def atPip (s : List Char) : Bool :=
  atWord ('p' :: 'i' :: 'p' :: '3' :: []) s || atWord ('p' :: 'i' :: 'p' :: []) s

/-- `re.search` scanner: tries the position matcher at every position
whose left boundary test succeeds, tracking the previous character. -/
def scanB (p : List Char → Bool) : Option Char → List Char → Bool
  | prev, [] => bOk prev && p []
  | prev, c :: r => (bOk prev && p (c :: r)) || scanB p (some c) r

/-- `re.search(r"\bw\b", s)` for a word `w` made of word characters. -/
def wordSearch (w : List Char) (s : List Char) : Bool :=
  scanB (atWord w) none s

/-- `re.search(r"\bpip3?\b", s)`. -/
def pipSearch (s : List Char) : Bool :=
  scanB atPip none s

/-- Scanner trying a position matcher at every position, with no
boundary requirement. -/
def scanAny (p : List Char → Bool) : List Char → Bool
  | [] => p []
  | c :: r => p (c :: r) || scanAny p r

/-- Plain substring containment (no word boundaries), used to state what
the spec's phrase "filename contains on-linux" literally says. -/
def containsSeq (w : List Char) (s : List Char) : Bool :=
  scanAny (fun t => (matchRest w t).isSome) s

/-- Embedding of `group_by_install_method` (lines 163-179).  The filename
check runs first; content patterns are checked in the fixed order
apt, pip/pip3, yum, brew, curl; the default is "other". -/
def group_by_install_method (name content : List Char) : String :=
  if wordSearch ("on-linux".toList) name then "any"
  else if wordSearch ("apt".toList) content then "apt"
  else if pipSearch content then "pip"
  else if wordSearch ("yum".toList) content then "yum"
  else if wordSearch ("brew".toList) content then "homebrew"
  else if wordSearch ("curl".toList) content then "curl"
  else "other"

/-- Embedding of `pathlib.PurePath.stem` for a filename: the part before
the last dot, provided that dot is neither the first nor the last
character; otherwise the whole name. -/
def stemOf (name : List Char) : List Char :=
  let i := name.length - 1 - (name.reverse.indexOf '.')
  if name.contains '.' && decide (0 < i) && decide (i < name.length - 1) then
    name.take i
  else name

/-- Embedding of `pathlib.PurePath.suffix`: the part from the last dot on,
under the same conditions; otherwise empty. -/
def suffixOf (name : List Char) : List Char :=
  let i := name.length - 1 - (name.reverse.indexOf '.')
  if name.contains '.' && decide (0 < i) && decide (i < name.length - 1) then
    name.drop i
  else []

/-- Embedding of `str.split("-", 1)`: at most one split, at the first
hyphen. -/
def splitFirst (sep : Char) (s : List Char) : List (List Char) :=
  if s.contains sep then
    (s.takeWhile (fun c => !(c == sep))) :: ((s.dropWhile (fun c => !(c == sep))).tail) :: []
  else s :: []

/-- Application-name derivation of `ScriptDataExtractor.extract`
(lines 72-75): `parts[1]` when the stem splits in two, else the stem. -/
def appNameOfStem (s : List Char) : List Char :=
  match splitFirst '-' s with
  | _ :: a :: [] => a
  | _ => s

/-- Embedding of `detect_script_type` (lines 38-47). -/
def detect_script_type (name : List Char) : String :=
  if suffixOf name == ".sh".toList then "bash"
  else if suffixOf name == ".ps1".toList then "powershell"
  else "bash"

/-- A script file: its filename (final path component) and its text. -/
structure SFile where
  name : List Char
  content : List Char

/-- Embedding of the `ScriptData` dataclass (lines 50-55). -/
structure ScriptData where
  app_name : List Char
  install_method : String
  script_type : String
  script_content : List Char

/-- Embedding of `ScriptDataExtractor.extract` (lines 67-80) with
`group_by_install_method` as the grouping function, as wired in `main`. -/
def extract (f : SFile) : ScriptData :=
  ⟨appNameOfStem (stemOf f.name), group_by_install_method f.name f.content,
    detect_script_type f.name, processContent f.content⟩

/-- One install-method record of the output document (lines 113-117). -/
structure InstallMethodRec where
  mtype : String
  script_type : String
  script : List Char

/-- One application entry of the output document (lines 110-119). -/
structure AppEntry where
  name : List Char
  install_methods : List InstallMethodRec

/-- The entry `process_script` builds for a fresh application name. -/
def mkEntry (d : ScriptData) : AppEntry :=
  ⟨d.app_name, ⟨d.install_method, d.script_type, d.script_content⟩ :: []⟩

/-- The warning recorded for a duplicate application name (lines 104-107). -/
def dupWarning (app path : List Char) : List Char :=
  ("Warning: Duplicate app name found - ").toList ++ app ++
    ("\nSkipping script: ").toList ++ path

/-- Mutable processor state (lines 93-94): recorded warnings and the
processed-script counter.  The accumulating `apps_data` dict is passed
separately, as in the code; Python dicts preserve insertion order, so it
is modelled as an association list extended at the end. -/
structure ProcState where
  errors_and_warnings : List (List Char)
  processed_script_count : Nat

/-- Embedding of `ScriptProcessor.process_script` (lines 96-120). -/
def process_script (st : ProcState) (apps : List (List Char × AppEntry)) (f : SFile) :
    ProcState × List (List Char × AppEntry) :=
  let d := extract f
  if (apps.lookup d.app_name).isSome then
    (⟨st.errors_and_warnings ++ (dupWarning d.app_name f.name) :: [],
      st.processed_script_count⟩, apps)
  else
    (⟨st.errors_and_warnings, st.processed_script_count + 1⟩,
      apps ++ (d.app_name, mkEntry d) :: [])

/-- The processor state of a freshly constructed `ScriptProcessor`. -/
def initState : ProcState :=
  ⟨[], 0⟩

/-- Embedding of `ScriptProcessor.process_scripts` (lines 122-141) up to
serialization: the final state and `list(apps_data.values())`, the
sequence written under the top-level "apps" key. -/
def process_scripts (files : List SFile) : ProcState × List AppEntry :=
  let r := files.foldl (fun acc f => process_script acc.1 acc.2 f) (initState, [])
  (r.1, r.2.map Prod.snd)

/-- Embedding of one `basedir.glob("*" + ext)` call (lines 32-34) over a
directory listing. -/
def glob1 (entries : List (List Char)) (ext : List Char) : List (List Char) :=
  entries.filter (fun n => ext.isSuffixOf n)

/-- Embedding of `ScriptPathCollector.collect` (lines 28-35).  The base
directory is `none` when it does not exist (or is not a directory), in
which case each `glob` call yields nothing, per pathlib semantics. -/
def collect (basedir : Option (List (List Char))) (exts : List (List Char)) :
    List (List Char) :=
  exts.foldl
    (fun files ext =>
      files ++ (match basedir with
        | none => []
        | some es => glob1 es ext)) []

/-- Concrete fixture: first script file with application name "foo". -/
def wFile1 : SFile :=
  ⟨("a-foo.sh".toList), ("#!/bin/bash\napt install foo\n".toList)⟩

/-- Concrete fixture: second script file, also application name "foo". -/
def wFile2 : SFile :=
  ⟨("b-foo.sh".toList), ("curl -O foo\n".toList)⟩

/-! ### Line structure

The spec describes the transformer as line-based.  `splitLines` and
`joinLines` convert between a text and its list of newline-separated
segments (the final segment carries no terminating newline). -/

/-- Prepend a character to the first segment of a line list. -/
def consHead (c : Char) : List (List Char) → List (List Char)
  | [] => (c :: []) :: []
  | l :: ls => (c :: l) :: ls

/-- Split a text at every newline; always returns at least one segment. -/
def splitLines : List Char → List (List Char)
  | [] => [] :: []
  | c :: r => if c = '\n' then [] :: splitLines r else consHead c (splitLines r)

/-- Join segments with single newlines. -/
def joinLines : List (List Char) → List Char
  | [] => []
  | l :: [] => l
  | l :: m :: ls => l ++ '\n' :: joinLines (m :: ls)

/-- A line that is safe for the scanner analysis: nonempty and starting
with a non-whitespace character. -/
def goodLine : List Char → Bool
  | [] => false
  | c :: _ => !(isPySpace c)

/-- All lines nonempty with non-whitespace first character, except that
the final (unterminated) segment may be empty. -/
def goodLines : List (List Char) → Bool
  | [] => true
  | l :: [] => l.isEmpty || goodLine l
  | l :: m :: ls => goodLine l && goodLines (m :: ls)

/-- The three lines removed by `remove_set_commands`'s pattern. -/
def isSetLine (l : List Char) : Bool :=
  l == ("set -e".toList) || l == ("set -u".toList) || l == ("set -x".toList)

/-- Remove every newline-terminated set-line; the final segment (which
has no terminating newline, so the pattern cannot match it) stays. -/
def stripSetLines : List (List Char) → List (List Char)
  | [] => []
  | l :: [] => l :: []
  | l :: m :: ls =>
    if isSetLine l then stripSetLines (m :: ls) else l :: stripSetLines (m :: ls)

/-- Remove a leading newline-terminated shebang line from a line list. -/
def dropShebangLines : List (List Char) → List (List Char)
  | [] => []
  | l :: [] => l :: []
  | l :: m :: ls => if startsHashBang l then m :: ls else l :: m :: ls

/-- No line after the first starts with the shebang marker. -/
def noLaterShebang : List (List Char) → Bool
  | [] => true
  | _ :: ls => ls.all (fun l => !(startsHashBang l))

/-- No segment before the final one is a set-line. -/
def noSetExceptLast : List (List Char) → Bool
  | [] => true
  | _ :: [] => true
  | l :: m :: ls => !(isSetLine l) && noSetExceptLast (m :: ls)

/-! ### Lemmas about the line structure -/

theorem consHead_ne_nil (c : Char) (M : List (List Char)) : consHead c M ≠ [] := by
  cases M <;> simp [consHead]

theorem splitLines_ne_nil : ∀ s : List Char, splitLines s ≠ []
  | [] => by simp [splitLines]
  | c :: r => by
    rw [splitLines]
    by_cases h : c = '\n'
    · rw [if_pos h]
      simp
    · rw [if_neg h]
      exact consHead_ne_nil c (splitLines r)

theorem joinLines_consHead (c : Char) (M : List (List Char)) (h : M ≠ []) :
    joinLines (consHead c M) = c :: joinLines M := by
  match M with
  | [] => exact absurd rfl h
  | x :: xs =>
    match xs with
    | [] => rfl
    | y :: ys => rfl

theorem joinLines_cons_ne (l : List Char) (M : List (List Char)) (h : M ≠ []) :
    joinLines (l :: M) = l ++ '\n' :: joinLines M := by
  match M with
  | [] => exact absurd rfl h
  | x :: xs => rfl

theorem join_split : ∀ s : List Char, joinLines (splitLines s) = s
  | [] => rfl
  | c :: r => by
    rw [splitLines]
    by_cases h : c = '\n'
    · rw [if_pos h, joinLines_cons_ne [] (splitLines r) (splitLines_ne_nil r)]
      rw [join_split r, h]
      rfl
    · rw [if_neg h, joinLines_consHead c _ (splitLines_ne_nil r), join_split r]

theorem splitLines_nl_append (a r : List Char) (h : '\n' ∉ a) :
    splitLines (a ++ '\n' :: r) = a :: splitLines r := by
  induction a with
  | nil => simp [splitLines]
  | cons c a ih =>
    have hc : c ≠ '\n' := fun hc => h (hc ▸ List.mem_cons_self c a)
    have ha : '\n' ∉ a := fun hm => h (List.mem_cons_of_mem c hm)
    rw [List.cons_append, splitLines, if_neg hc, ih ha]
    rfl

theorem splitLines_no_nl (a : List Char) (h : '\n' ∉ a) : splitLines a = a :: [] := by
  induction a with
  | nil => rfl
  | cons c a ih =>
    have hc : c ≠ '\n' := fun hc => h (hc ▸ List.mem_cons_self c a)
    have ha : '\n' ∉ a := fun hm => h (List.mem_cons_of_mem c hm)
    rw [splitLines, if_neg hc, ih ha]
    rfl

theorem split_join : ∀ M : List (List Char), M ≠ [] → (∀ l ∈ M, '\n' ∉ l) →
    splitLines (joinLines M) = M
  | [], h, _ => absurd rfl h
  | l :: [], _, hnl => by
    simp only [joinLines]
    exact splitLines_no_nl l (hnl l (List.mem_cons_self l []))
  | l :: m :: ls, _, hnl => by
    have : joinLines (l :: m :: ls) = l ++ '\n' :: joinLines (m :: ls) := rfl
    rw [this, splitLines_nl_append l _ (hnl l (List.mem_cons_self l _))]
    rw [split_join (m :: ls) (by simp) (fun x hx => hnl x (List.mem_cons_of_mem l hx))]

theorem mem_splitLines_no_nl : ∀ (s : List Char) (l : List Char),
    l ∈ splitLines s → '\n' ∉ l
  | [], l, h => by
    simp [splitLines] at h
    simp [h]
  | c :: r, l, h => by
    rw [splitLines] at h
    by_cases hc : c = '\n'
    · rw [if_pos hc] at h
      rcases List.mem_cons.1 h with rfl | h
      · simp
      · exact mem_splitLines_no_nl r l h
    · rw [if_neg hc] at h
      obtain ⟨x, xs, hM⟩ := List.exists_cons_of_ne_nil (splitLines_ne_nil r)
      rw [hM] at h
      simp only [consHead, List.mem_cons] at h
      rcases h with rfl | h
      · intro hm
        rcases List.mem_cons.1 hm with h1 | h1
        · exact hc h1.symm
        · exact mem_splitLines_no_nl r x (hM ▸ List.mem_cons_self x xs) h1
      · exact mem_splitLines_no_nl r l (hM ▸ List.mem_cons_of_mem x h)

/-! ### Lemmas about the set-line scanner -/

theorem trySetMatch_length {s r : List Char} (h : trySetMatch s = some r) :
    r.length + 7 ≤ s.length := by
  rw [trySetMatch] at h
  split at h
  case _ f r0 heq =>
    split at h
    · have h1 : (s.dropWhile isPySpace).length ≤ s.length :=
        (List.dropWhile_sublist isPySpace).length_le
      rw [heq] at h1
      simp only [List.length_cons] at h1
      cases h
      omega
    · exact absurd h (by simp)
  case _ => exact absurd h (by simp)

theorem rscGo_fuel_irrel : ∀ (f1 : Nat) (f2 : Nat) (b : Bool) (s : List Char),
    s.length ≤ f1 → s.length ≤ f2 → rscGo f1 b s = rscGo f2 b s
  | 0, f2, b, s, h1, _ => by
    have : s = [] := List.eq_nil_of_length_eq_zero (Nat.le_zero.1 h1)
    subst this
    cases f2 <;> rfl
  | _ + 1, f2, b, [], _, _ => by cases f2 <;> rfl
  | g1 + 1, f2, b, c :: r, h1, h2 => by
    match f2, h2 with
    | g2 + 1, h2 =>
      simp only [List.length_cons] at h1 h2
      cases b
      · have e1 : rscGo (g1 + 1) false (c :: r) = c :: rscGo g1 (c == '\n') r := rfl
        have e2 : rscGo (g2 + 1) false (c :: r) = c :: rscGo g2 (c == '\n') r := rfl
        rw [e1, e2, rscGo_fuel_irrel g1 g2 (c == '\n') r (by omega) (by omega)]
      · have e1 : rscGo (g1 + 1) true (c :: r) =
            (match trySetMatch (c :: r) with
              | some r2 => rscGo g1 (wsEndsLine r2) (afterWS r2)
              | none => c :: rscGo g1 (c == '\n') r) := rfl
        have e2 : rscGo (g2 + 1) true (c :: r) =
            (match trySetMatch (c :: r) with
              | some r2 => rscGo g2 (wsEndsLine r2) (afterWS r2)
              | none => c :: rscGo g2 (c == '\n') r) := rfl
        rw [e1, e2]
        match hm : trySetMatch (c :: r) with
        | some r2 =>
          have hlen := trySetMatch_length hm
          have hws : (afterWS r2).length ≤ r2.length :=
            (List.dropWhile_sublist isPySpace).length_le
          simp only [List.length_cons] at hlen
          show rscGo g1 (wsEndsLine r2) (afterWS r2) = rscGo g2 (wsEndsLine r2) (afterWS r2)
          exact rscGo_fuel_irrel g1 g2 (wsEndsLine r2) (afterWS r2) (by omega) (by omega)
        | none =>
          show c :: rscGo g1 (c == '\n') r = c :: rscGo g2 (c == '\n') r
          rw [rscGo_fuel_irrel g1 g2 (c == '\n') r (by omega) (by omega)]

theorem rsc_nil (b : Bool) : rsc b [] = [] := rfl

theorem rsc_cons_false (c : Char) (r : List Char) :
    rsc false (c :: r) = c :: rsc (c == '\n') r := by
  rw [rsc, rsc]
  simp only [List.length_cons]
  rw [rscGo]
  simp

theorem rsc_cons_none {c : Char} {r : List Char} (h : trySetMatch (c :: r) = none) :
    rsc true (c :: r) = c :: rsc (c == '\n') r := by
  rw [rsc, rsc]
  simp only [List.length_cons]
  rw [rscGo]
  simp [h]

theorem rsc_cons_match {c : Char} {r r2 : List Char}
    (h : trySetMatch (c :: r) = some r2) :
    rsc true (c :: r) = rsc (wsEndsLine r2) (afterWS r2) := by
  rw [rsc, rsc]
  simp only [List.length_cons]
  rw [rscGo]
  simp only [if_pos rfl, h]
  have hlen := trySetMatch_length h
  simp only [List.length_cons] at hlen
  have hws : (afterWS r2).length ≤ r2.length :=
    (List.dropWhile_sublist isPySpace).length_le
  exact rscGo_fuel_irrel r.length (afterWS r2).length _ _ (by omega) (by omega)

theorem trySetMatch_none_of_no_nl {s : List Char} (h : '\n' ∉ s) :
    trySetMatch s = none := by
  rw [trySetMatch]
  split
  case _ f r0 heq =>
    exfalso
    apply h
    have : '\n' ∈ s.dropWhile isPySpace := by
      rw [heq]
      simp
    exact (List.dropWhile_sublist isPySpace).subset this
  case _ => rfl

theorem rsc_no_nl : ∀ (s : List Char), '\n' ∉ s → ∀ b, rsc b s = s
  | [], _, b => rsc_nil b
  | c :: r, h, b => by
    have hc : c ≠ '\n' := fun hc => h (hc ▸ List.mem_cons_self c r)
    have hr : '\n' ∉ r := fun hm => h (List.mem_cons_of_mem c hm)
    have hf : (c == '\n') = false := by simpa using hc
    cases b
    · rw [rsc_cons_false, hf, rsc_no_nl r hr false]
    · rw [rsc_cons_none (trySetMatch_none_of_no_nl h), hf, rsc_no_nl r hr false]

theorem rsc_false_append : ∀ (a : List Char), '\n' ∉ a → ∀ r,
    rsc false (a ++ '\n' :: r) = a ++ '\n' :: rsc true r
  | [], _, r => by
    rw [List.nil_append, rsc_cons_false]
    simp
  | c :: a, h, r => by
    have hc : c ≠ '\n' := fun hc => h (hc ▸ List.mem_cons_self c a)
    have ha : '\n' ∉ a := fun hm => h (List.mem_cons_of_mem c hm)
    rw [List.cons_append, rsc_cons_false]
    have hf : (c == '\n') = false := by simpa using hc
    rw [hf, rsc_false_append a ha r]
    rfl

/-! ### Characterization of the transformers on indentation-free texts -/

theorem takeWhile_all_append {p : Char → Bool} : ∀ (a : List Char), (∀ c ∈ a, p c = true) →
    ∀ (x : Char), p x = false → ∀ r, (a ++ x :: r).takeWhile p = a
  | [], _, x, hx, r => by
    rw [List.nil_append, List.takeWhile_cons, hx]
    simp
  | c :: a, h, x, hx, r => by
    have hc : p c = true := h c (List.mem_cons_self c a)
    have ha : ∀ d ∈ a, p d = true := fun d hd => h d (List.mem_cons_of_mem c hd)
    rw [List.cons_append, List.takeWhile_cons, hc]
    simp [takeWhile_all_append a ha x hx r]

theorem dropWhile_all_append {p : Char → Bool} : ∀ (a : List Char), (∀ c ∈ a, p c = true) →
    ∀ (x : Char), p x = false → ∀ r, (a ++ x :: r).dropWhile p = x :: r
  | [], _, x, hx, r => by
    rw [List.nil_append, List.dropWhile_cons, hx]
    simp
  | c :: a, h, x, hx, r => by
    have hc : p c = true := h c (List.mem_cons_self c a)
    have ha : ∀ d ∈ a, p d = true := fun d hd => h d (List.mem_cons_of_mem c hd)
    rw [List.cons_append, List.dropWhile_cons, hc]
    simp [dropWhile_all_append a ha x hx r]

theorem tsm_setline {f : Char} (hf : setFlag f = true) (J : List Char) :
    trySetMatch ('s' :: 'e' :: 't' :: ' ' :: '-' :: f :: '\n' :: J) = some J := by
  show (if setFlag f then some J else none) = some J
  rw [hf]
  rfl

theorem dropWhile_ws_good {l : List Char} (hg : goodLine l = true) (t : List Char) :
    (l ++ t).dropWhile isPySpace = l ++ t := by
  match l, hg with
  | c :: l, hg =>
    have hc : isPySpace c = false := by
      simpa [goodLine] using hg
    rw [List.cons_append, List.dropWhile_cons, hc]
    simp

theorem tsm_none_of_line {l : List Char} (hg : goodLine l = true) (hnl : '\n' ∉ l)
    (hns : isSetLine l = false) (J : List Char) : trySetMatch (l ++ '\n' :: J) = none := by
  rw [trySetMatch, dropWhile_ws_good hg]
  split
  case _ f r0 heq =>
    by_cases hsf : setFlag f = true
    · exfalso
      have hl : (l ++ '\n' :: J).takeWhile (fun x => !(x == '\n')) = l := by
        refine takeWhile_all_append l ?_ '\n' (by simp) J
        intro c hc
        have hcn : c ≠ '\n' := fun he => hnl (he ▸ hc)
        simpa using hcn
      rw [heq] at hl
      have hfe : (f = 'e' ∨ f = 'u') ∨ f = 'x' := by
        simpa [setFlag] using hsf
      rcases hfe with (rfl | rfl) | rfl
      · rw [show ('s' :: 'e' :: 't' :: ' ' :: '-' :: 'e' :: '\n' :: r0).takeWhile
            (fun x => !(x == '\n')) = 's' :: 'e' :: 't' :: ' ' :: '-' :: 'e' :: [] from rfl]
          at hl
        rw [← hl] at hns
        exact absurd hns (by simp [isSetLine])
      · rw [show ('s' :: 'e' :: 't' :: ' ' :: '-' :: 'u' :: '\n' :: r0).takeWhile
            (fun x => !(x == '\n')) = 's' :: 'e' :: 't' :: ' ' :: '-' :: 'u' :: [] from rfl]
          at hl
        rw [← hl] at hns
        exact absurd hns (by simp [isSetLine])
      · rw [show ('s' :: 'e' :: 't' :: ' ' :: '-' :: 'x' :: '\n' :: r0).takeWhile
            (fun x => !(x == '\n')) = 's' :: 'e' :: 't' :: ' ' :: '-' :: 'x' :: [] from rfl]
          at hl
        rw [← hl] at hns
        exact absurd hns (by simp [isSetLine])
    · rw [if_neg hsf]
  case _ => rfl

theorem joinLines_good_head : ∀ (M : List (List Char)), M ≠ [] → goodLines M = true →
    (joinLines M).takeWhile isPySpace = [] ∧ (joinLines M).dropWhile isPySpace = joinLines M
  | [], h, _ => absurd rfl h
  | [] :: [], _, _ => by constructor <;> rfl
  | [] :: m :: ls, _, hgood => by
    exfalso
    simp [goodLines, goodLine] at hgood
  | (c :: l) :: ls, _, hgood => by
    have hc : isPySpace c = false := by
      match ls, hgood with
      | [], hgood => simpa [goodLines, goodLine] using hgood
      | m :: ls, hgood =>
        rw [goodLines, Bool.and_eq_true] at hgood
        simpa [goodLine] using hgood.1
    have hshape : ∃ t, joinLines ((c :: l) :: ls) = c :: t := by
      match ls with
      | [] => exact ⟨l, rfl⟩
      | m :: ls => exact ⟨l ++ '\n' :: joinLines (m :: ls), rfl⟩
    obtain ⟨t, ht⟩ := hshape
    rw [ht, List.takeWhile_cons, List.dropWhile_cons, hc]
    simp

theorem afterWS_joinLines (M : List (List Char)) (h : M ≠ []) (hg : goodLines M = true) :
    afterWS (joinLines M) = joinLines M :=
  (joinLines_good_head M h hg).2

theorem wsEndsLine_joinLines (M : List (List Char)) (h : M ≠ []) (hg : goodLines M = true) :
    wsEndsLine (joinLines M) = true := by
  rw [wsEndsLine, (joinLines_good_head M h hg).1]
  rfl

theorem goodLines_tail {l : List Char} {M : List (List Char)} (h : M ≠ [])
    (hg : goodLines (l :: M) = true) : goodLines M = true := by
  match M, h with
  | m :: ls, _ =>
    rw [goodLines, Bool.and_eq_true] at hg
    exact hg.2

theorem goodLine_head {l : List Char} {M : List (List Char)} (h : M ≠ [])
    (hg : goodLines (l :: M) = true) : goodLine l = true := by
  match M, h with
  | m :: ls, _ =>
    rw [goodLines, Bool.and_eq_true] at hg
    exact hg.1

theorem stripSetLines_ne_nil : ∀ (M : List (List Char)), M ≠ [] → stripSetLines M ≠ []
  | l :: [], _ => by simp [stripSetLines]
  | l :: m :: ls, _ => by
    rw [stripSetLines]
    by_cases h : isSetLine l = true
    · rw [if_pos h]
      exact stripSetLines_ne_nil (m :: ls) (by simp)
    · rw [if_neg h]
      simp

theorem isSetLine_eq {l : List Char} (h : isSetLine l = true) :
    (l = 's' :: 'e' :: 't' :: ' ' :: '-' :: 'e' :: [] ∨
      l = 's' :: 'e' :: 't' :: ' ' :: '-' :: 'u' :: []) ∨
      l = 's' :: 'e' :: 't' :: ' ' :: '-' :: 'x' :: [] := by
  simpa [isSetLine] using h

/-- Core characterization: on a text whose lines all start with
non-whitespace characters, the MULTILINE scanner removes exactly the
newline-terminated set-lines. -/
theorem rsc_join : ∀ (M : List (List Char)), M ≠ [] → goodLines M = true →
    (∀ l ∈ M, '\n' ∉ l) → rsc true (joinLines M) = joinLines (stripSetLines M)
  | [], h, _, _ => absurd rfl h
  | l :: [], _, _, hnl => by
    show rsc true l = joinLines (stripSetLines (l :: []))
    rw [stripSetLines]
    show rsc true l = l
    exact rsc_no_nl l (hnl l (List.mem_cons_self l [])) true
  | l :: m :: ls, _, hgood, hnl => by
    have hmls : (m :: ls : List (List Char)) ≠ [] := by simp
    have hgl : goodLine l = true := goodLine_head hmls hgood
    have hgtail : goodLines (m :: ls) = true := goodLines_tail hmls hgood
    have hnll : '\n' ∉ l := hnl l (List.mem_cons_self l _)
    have hnlt : ∀ x ∈ m :: ls, '\n' ∉ x := fun x hx => hnl x (List.mem_cons_of_mem l hx)
    have hJ : joinLines (l :: m :: ls) = l ++ '\n' :: joinLines (m :: ls) := rfl
    by_cases hset : isSetLine l = true
    · rcases isSetLine_eq hset with (rfl | rfl) | rfl <;>
      · rw [hJ]
        simp only [List.cons_append, List.nil_append]
        rw [rsc_cons_match (tsm_setline (by decide) _)]
        rw [afterWS_joinLines _ hmls hgtail, wsEndsLine_joinLines _ hmls hgtail]
        rw [rsc_join (m :: ls) hmls hgtail hnlt]
        rw [stripSetLines, if_pos (by decide)]
    · have hnone := tsm_none_of_line hgl hnll (by simpa using hset) (joinLines (m :: ls))
      match l, hgl, hset, hnll, hnone with
      | c :: l0, hgl, hset, hnll, hnone =>
        rw [hJ]
        simp only [List.cons_append] at hnone ⊢
        rw [rsc_cons_none hnone]
        have hc : c ≠ '\n' := fun hc => hnll (hc ▸ List.mem_cons_self c l0)
        have hcf : (c == '\n') = false := by simpa using hc
        have hnl0 : '\n' ∉ l0 := fun hm => hnll (List.mem_cons_of_mem c hm)
        rw [hcf, rsc_false_append l0 hnl0 (joinLines (m :: ls))]
        rw [rsc_join (m :: ls) hmls hgtail hnlt]
        rw [stripSetLines, if_neg (by simpa using hset)]
        rw [joinLines_cons_ne _ _ (stripSetLines_ne_nil (m :: ls) hmls)]
        rfl

theorem removeShebang_no_nl {l : List Char} (hnl : '\n' ∉ l) : removeShebang l = l := by
  rw [removeShebang]
  by_cases hb : startsHashBang (l.dropWhile isPySpace) = true
  · rw [if_pos hb]
    have hdw : ((l.dropWhile isPySpace).drop 2).dropWhile (fun x => !(x == '\n')) = [] := by
      rw [List.dropWhile_eq_nil_iff]
      intro x hx
      have hxl : x ∈ l :=
        (List.dropWhile_sublist isPySpace).subset ((List.drop_sublist 2 _).subset hx)
      have : x ≠ '\n' := fun he => hnl (he ▸ hxl)
      simpa using this
    rw [hdw]
  · rw [if_neg hb]

theorem startsHashBang_append_line {c : Char} {l0 : List Char}
    (h : startsHashBang (c :: l0) = false) (r : List Char) :
    startsHashBang (c :: (l0 ++ '\n' :: r)) = false := by
  match l0 with
  | [] =>
    show ((c == '#') && ('\n' == '!')) = false
    simp
  | d :: l0 => exact h

theorem removeShebang_join : ∀ (M : List (List Char)), M ≠ [] → goodLines M = true →
    (∀ l ∈ M, '\n' ∉ l) → removeShebang (joinLines M) = joinLines (dropShebangLines M)
  | [], h, _, _ => absurd rfl h
  | l :: [], _, _, hnl => by
    show removeShebang l = joinLines (dropShebangLines (l :: []))
    rw [dropShebangLines]
    show removeShebang l = l
    exact removeShebang_no_nl (hnl l (List.mem_cons_self l []))
  | l :: m :: ls, _, hgood, hnl => by
    have hmls : (m :: ls : List (List Char)) ≠ [] := by simp
    have hgl : goodLine l = true := goodLine_head hmls hgood
    have hgtail : goodLines (m :: ls) = true := goodLines_tail hmls hgood
    have hnll : '\n' ∉ l := hnl l (List.mem_cons_self l _)
    have hJ : joinLines (l :: m :: ls) = l ++ '\n' :: joinLines (m :: ls) := rfl
    rw [hJ, removeShebang]
    rw [dropWhile_ws_good hgl]
    by_cases hb : startsHashBang l = true
    · match l, hb, hnll with
      | c1 :: c2 :: l2, hb, hnll =>
        have hb2 : (c1 == '#') = true ∧ (c2 == '!') = true := by
          rw [startsHashBang, Bool.and_eq_true] at hb
          exact hb
        have hc1 : c1 = '#' := by simpa using hb2.1
        have hc2 : c2 = '!' := by simpa using hb2.2
        subst hc1
        subst hc2
        have hbj : startsHashBang (('#' :: '!' :: l2) ++ '\n' :: joinLines (m :: ls)) = true := rfl
        rw [if_pos hbj]
        have hdrop : ((('#' :: '!' :: l2) ++ '\n' :: joinLines (m :: ls)).drop 2).dropWhile
            (fun x => !(x == '\n')) = '\n' :: joinLines (m :: ls) := by
          have : (('#' :: '!' :: l2) ++ '\n' :: joinLines (m :: ls)).drop 2 =
              l2 ++ '\n' :: joinLines (m :: ls) := rfl
          rw [this]
          refine dropWhile_all_append l2 ?_ '\n' (by simp) _
          intro x hx
          have : x ≠ '\n' := fun he => hnll (he ▸ List.mem_cons_of_mem '#'
            (List.mem_cons_of_mem '!' hx))
          simpa using this
        rw [hdrop]
        show (joinLines (m :: ls)).dropWhile isPySpace =
          joinLines (dropShebangLines (('#' :: '!' :: l2) :: m :: ls))
        rw [(joinLines_good_head _ hmls hgtail).2]
        rw [dropShebangLines, if_pos hb]
    · match l, hgl, hb with
      | c :: l0, hgl, hb =>
        have hb0 : startsHashBang (c :: l0) = false := by simpa using hb
        have hbj : startsHashBang (c :: (l0 ++ '\n' :: joinLines (m :: ls))) = false :=
          startsHashBang_append_line hb0 _
        rw [if_neg (by simp [hbj])]
        rw [dropShebangLines, if_neg (by simpa using hb)]
        rfl

/-! ### Preservation lemmas -/

theorem stripSetLines_sublist : ∀ (M : List (List Char)), List.Sublist (stripSetLines M) M
  | [] => List.Sublist.refl []
  | l :: [] => List.Sublist.refl _
  | l :: m :: ls => by
    rw [stripSetLines]
    by_cases h : isSetLine l = true
    · rw [if_pos h]
      exact (stripSetLines_sublist (m :: ls)).trans (List.sublist_cons_self l _)
    · rw [if_neg h]
      exact List.Sublist.cons₂ l (stripSetLines_sublist (m :: ls))

theorem dropShebangLines_sublist : ∀ (M : List (List Char)),
    List.Sublist (dropShebangLines M) M
  | [] => List.Sublist.refl []
  | l :: [] => List.Sublist.refl _
  | l :: m :: ls => by
    rw [dropShebangLines]
    by_cases h : startsHashBang l = true
    · rw [if_pos h]
      exact List.sublist_cons_self l _
    · rw [if_neg h]

theorem dropShebangLines_ne_nil : ∀ (M : List (List Char)), M ≠ [] →
    dropShebangLines M ≠ []
  | l :: [], _ => by simp [dropShebangLines]
  | l :: m :: ls, _ => by
    rw [dropShebangLines]
    by_cases h : startsHashBang l = true
    · rw [if_pos h]
      simp
    · rw [if_neg h]
      simp

theorem goodLines_cons_of {l : List Char} {M : List (List Char)} (hl : goodLine l = true)
    (hM : goodLines M = true) (h : M ≠ []) : goodLines (l :: M) = true := by
  match M, h with
  | m :: ls, _ =>
    rw [goodLines, Bool.and_eq_true]
    exact ⟨hl, hM⟩

theorem stripSetLines_goodLines : ∀ (M : List (List Char)), goodLines M = true →
    goodLines (stripSetLines M) = true
  | [], h => h
  | l :: [], h => h
  | l :: m :: ls, h => by
    have hmls : (m :: ls : List (List Char)) ≠ [] := by simp
    have htail := stripSetLines_goodLines (m :: ls) (goodLines_tail hmls h)
    rw [stripSetLines]
    by_cases hs : isSetLine l = true
    · rw [if_pos hs]
      exact htail
    · rw [if_neg hs]
      exact goodLines_cons_of (goodLine_head hmls h) htail (stripSetLines_ne_nil _ hmls)

theorem dropShebangLines_goodLines : ∀ (M : List (List Char)), goodLines M = true →
    goodLines (dropShebangLines M) = true
  | [], h => h
  | l :: [], h => h
  | l :: m :: ls, h => by
    rw [dropShebangLines]
    by_cases hs : startsHashBang l = true
    · rw [if_pos hs]
      exact goodLines_tail (by simp) h
    · rw [if_neg hs]
      exact h

theorem stripSetLines_no_set : ∀ (M : List (List Char)),
    noSetExceptLast (stripSetLines M) = true
  | [] => rfl
  | l :: [] => rfl
  | l :: m :: ls => by
    have ih := stripSetLines_no_set (m :: ls)
    rw [stripSetLines]
    by_cases hs : isSetLine l = true
    · rw [if_pos hs]
      exact ih
    · rw [if_neg hs]
      obtain ⟨x, xs, hx⟩ := List.exists_cons_of_ne_nil (stripSetLines_ne_nil (m :: ls) (by simp))
      rw [hx]
      rw [hx] at ih
      rw [noSetExceptLast, Bool.and_eq_true]
      exact ⟨by simpa using hs, ih⟩

theorem stripSetLines_fix : ∀ (M : List (List Char)), noSetExceptLast M = true →
    stripSetLines M = M
  | [], _ => rfl
  | l :: [], _ => rfl
  | l :: m :: ls, h => by
    rw [noSetExceptLast, Bool.and_eq_true] at h
    rw [stripSetLines, if_neg (by simpa using h.1), stripSetLines_fix (m :: ls) h.2]

theorem dropShebangLines_of_no_hb : ∀ (M : List (List Char)),
    (∀ l ∈ M, startsHashBang l = false) → dropShebangLines M = M
  | [], _ => rfl
  | l :: [], _ => rfl
  | l :: m :: ls, h => by
    rw [dropShebangLines, if_neg (by simp [h l (List.mem_cons_self l _)])]

/-! ### Process-level characterization -/

theorem processContent_join (M : List (List Char)) (h : M ≠ []) (hg : goodLines M = true)
    (hnl : ∀ l ∈ M, '\n' ∉ l) :
    processContent (joinLines M) = joinLines (stripSetLines (dropShebangLines M)) := by
  rw [processContent, removeShebang_join M h hg hnl, removeSetCommands]
  exact rsc_join _ (dropShebangLines_ne_nil M h) (dropShebangLines_goodLines M hg)
    (fun l hl => hnl l ((dropShebangLines_sublist M).subset hl))

theorem processContent_char (c : List Char) (hg : goodLines (splitLines c) = true) :
    processContent c = joinLines (stripSetLines (dropShebangLines (splitLines c))) := by
  conv_lhs => rw [← join_split c]
  exact processContent_join _ (splitLines_ne_nil c) hg (fun l hl => mem_splitLines_no_nl c l hl)

theorem splitLines_processContent (c : List Char) (hg : goodLines (splitLines c) = true) :
    splitLines (processContent c) = stripSetLines (dropShebangLines (splitLines c)) := by
  rw [processContent_char c hg]
  refine split_join _ ?_ ?_
  · exact stripSetLines_ne_nil _ (dropShebangLines_ne_nil _ (splitLines_ne_nil c))
  · intro l hl
    exact mem_splitLines_no_nl c l
      ((dropShebangLines_sublist (splitLines c)).subset
        ((stripSetLines_sublist (dropShebangLines (splitLines c))).subset hl))

theorem noLaterShebang_tail {l : List Char} {M : List (List Char)}
    (h : noLaterShebang (l :: M) = true) : ∀ x ∈ M, startsHashBang x = false := by
  intro x hx
  rw [noLaterShebang, List.all_eq_true] at h
  simpa using h x hx

theorem dropSheb_strip_fix : ∀ (L : List (List Char)), noLaterShebang L = true →
    dropShebangLines (stripSetLines (dropShebangLines L)) = stripSetLines (dropShebangLines L)
  | [], _ => rfl
  | l :: [], _ => rfl
  | l0 :: l1 :: ls, h => by
    have htail : ∀ x ∈ l1 :: ls, startsHashBang x = false := noLaterShebang_tail h
    by_cases hb : startsHashBang l0 = true
    · rw [dropShebangLines, if_pos hb]
      refine dropShebangLines_of_no_hb _ ?_
      intro x hx
      exact htail x ((stripSetLines_sublist (l1 :: ls)).subset hx)
    · rw [dropShebangLines, if_neg hb]
      refine dropShebangLines_of_no_hb _ ?_
      intro x hx
      rcases List.mem_cons.1 ((stripSetLines_sublist (l0 :: l1 :: ls)).subset hx) with rfl | hx2
      · simpa using hb
      · exact htail x hx2

/-! ### Claim C1: idempotence of the content transformer -/

/-- Claim C1 counterexample: the transformation is not idempotent on every
input.  On a text whose second line is itself a shebang line, the first
application removes only the first shebang, and a second application
removes the next one, so running the transformer twice differs from
running it once. -/
theorem c1_counterexample :
    processContent (processContent ("#!/a\n#!b\nc".toList)) ≠
      processContent ("#!/a\n#!b\nc".toList) := by decide

/-- Claim C1 (amended): the full transformation (shebang stripping followed
by set-line stripping) is idempotent on every input in which no line
begins with a whitespace character (hence no blank interior lines or
indented lines) and no line after the first begins with the shebang
marker. -/
theorem c1_transformer_idempotent (c : List Char)
    (hg : goodLines (splitLines c) = true)
    (hs : noLaterShebang (splitLines c) = true) :
    processContent (processContent c) = processContent c := by
  have h1 : processContent c = joinLines (stripSetLines (dropShebangLines (splitLines c))) :=
    processContent_char c hg
  have LLne : stripSetLines (dropShebangLines (splitLines c)) ≠ [] :=
    stripSetLines_ne_nil _ (dropShebangLines_ne_nil _ (splitLines_ne_nil c))
  have LLgood : goodLines (stripSetLines (dropShebangLines (splitLines c))) = true :=
    stripSetLines_goodLines _ (dropShebangLines_goodLines _ hg)
  have LLnl : ∀ l ∈ stripSetLines (dropShebangLines (splitLines c)), '\n' ∉ l := by
    intro l hl
    exact mem_splitLines_no_nl c l
      ((dropShebangLines_sublist (splitLines c)).subset
        ((stripSetLines_sublist (dropShebangLines (splitLines c))).subset hl))
  rw [h1, processContent_join _ LLne LLgood LLnl]
  rw [dropSheb_strip_fix _ hs]
  rw [stripSetLines_fix _ (stripSetLines_no_set (dropShebangLines (splitLines c)))]

/-- Claim C1 witness: idempotence instance on a concrete clean script. -/
theorem c1_witness :
    processContent (processContent ("#!/bin/bash\nset -e\necho hi\n".toList)) =
      processContent ("#!/bin/bash\nset -e\necho hi\n".toList) :=
  c1_transformer_idempotent _ (by decide) (by decide)

/-! ### Claim C4: which set-lines are removed -/

/-- Claim C4 counterexample: a line combining flags, such as `set -eu`, is
not removed — the regex character class `[eux]` matches exactly one flag
character, which must be followed immediately by the newline.  The
combination line is a line of the input and remains a line of the
output. -/
theorem c4_counterexample :
    processContent ("set -eu\nfoo".toList) = ("set -eu\nfoo".toList) ∧
      ("set -eu".toList) ∈ splitLines ("set -eu\nfoo".toList) := by decide

/-- Claim C4 (amended): on every input in which no line begins with
whitespace, the transformer removes from anywhere in the text exactly the
newline-terminated lines consisting solely of `set -e`, `set -u`, or
`set -x`; lines combining those flags (for example `set -eu` or
`set -eux`) are not removed (they are not `isSetLine` lines, so
`stripSetLines` keeps them). -/
theorem c4_single_flag_set_lines_removed (c : List Char)
    (hg : goodLines (splitLines c) = true) :
    splitLines (removeSetCommands c) = stripSetLines (splitLines c) := by
  have h : removeSetCommands c = joinLines (stripSetLines (splitLines c)) := by
    rw [removeSetCommands]
    conv_lhs => rw [← join_split c]
    exact rsc_join _ (splitLines_ne_nil c) hg (mem_splitLines_no_nl c)
  rw [h]
  refine split_join _ (stripSetLines_ne_nil _ (splitLines_ne_nil c)) ?_
  intro l hl
  exact mem_splitLines_no_nl c l ((stripSetLines_sublist _).subset hl)

/-- Claim C4 witness: on a concrete script, `set -e` is removed while
`set -eu` stays. -/
theorem c4_witness :
    splitLines (removeSetCommands ("a\nset -e\nset -eu\nb".toList)) =
      ("a".toList) :: ("set -eu".toList) :: ("b".toList) :: [] := by
  rw [c4_single_flag_set_lines_removed _ (by decide)]
  decide

/-! ### Claim C5: other lines pass through unchanged and in order -/

/-- Claim C5 counterexample: the transformation is not line-based on all
inputs.  The trailing `\s*` of the set-line pattern consumes the leading
whitespace of the following line, so the line `  foo` — which is neither
a shebang line nor a set-line — does not appear in the output (it was
changed to `foo`). -/
theorem c5_counterexample :
    ("  foo".toList) ∈ splitLines ("set -e\n  foo".toList) ∧
      isSetLine ("  foo".toList) = false ∧
      startsHashBang ("  foo".toList) = false ∧
      ("  foo".toList) ∉ splitLines (processContent ("set -e\n  foo".toList)) := by decide

/-- Claim C5 (amended): on every input in which no line begins with a
whitespace character, the output's lines are exactly the input's lines
minus the removed leading shebang line and the removed set-lines, each
remaining line unchanged and in the same relative order (in particular
the output's line list is a sublist of the input's). -/
theorem c5_lines_preserved (c : List Char)
    (hg : goodLines (splitLines c) = true) :
    splitLines (processContent c) = stripSetLines (dropShebangLines (splitLines c)) ∧
      List.Sublist (splitLines (processContent c)) (splitLines c) := by
  have h := splitLines_processContent c hg
  refine ⟨h, ?_⟩
  rw [h]
  exact (stripSetLines_sublist _).trans (dropShebangLines_sublist _)

/-- Claim C5 witness: concrete instance with a shebang, a set-line and
two surviving lines. -/
theorem c5_witness :
    splitLines (processContent ("#!/bin/sh\nset -u\necho ok\n".toList)) =
        stripSetLines (dropShebangLines (splitLines ("#!/bin/sh\nset -u\necho ok\n".toList))) ∧
      List.Sublist (splitLines (processContent ("#!/bin/sh\nset -u\necho ok\n".toList)))
        (splitLines ("#!/bin/sh\nset -u\necho ok\n".toList)) :=
  c5_lines_preserved _ (by decide)

/-! ### Claim C9: output never begins with a shebang marker -/

theorem startsHashBang_of_append_line {l J : List Char}
    (h : startsHashBang (l ++ '\n' :: J) = true) : startsHashBang l = true := by
  match l with
  | [] =>
    exfalso
    match J with
    | [] => exact absurd h (by decide)
    | j :: js =>
      rw [List.nil_append] at h
      have h2 : (('\n' == '#') && (j == '!')) = true := h
      exact absurd h2 (by simp)
  | x :: [] =>
    exfalso
    have h2 : ((x == '#') && ('\n' == '!')) = true := h
    exact absurd h2 (by simp)
  | x :: y :: l2 => exact h

theorem joinLines_no_hb : ∀ (M : List (List Char)),
    (∀ l ∈ M, startsHashBang l = false) → startsHashBang (joinLines M) = false
  | [], _ => rfl
  | l :: [], h => h l (List.mem_cons_self l [])
  | l :: m :: ls, h => by
    have hl := h l (List.mem_cons_self l _)
    show startsHashBang (l ++ '\n' :: joinLines (m :: ls)) = false
    match l, hl with
    | [], _ =>
      rw [List.nil_append]
      match joinLines (m :: ls) with
      | [] => rfl
      | j :: js =>
        show (('\n' == '#') && (j == '!')) = false
        simp
    | x :: [], _ =>
      show ((x == '#') && ('\n' == '!')) = false
      simp
    | x :: y :: l2, hl => exact hl

/-- Claim C9 counterexample: on an input whose first line is a
newline-terminated shebang line but whose second line is also a shebang
line, the transformed body still begins with `#!` (only the match at
position 0 is replaced). -/
theorem c9_counterexample :
    startsHashBang ("#!/a\n#!b\n".toList) = true ∧
      startsHashBang (processContent ("#!/a\n#!b\n".toList)) = true := by decide

/-- Claim C9 (amended): for every input in which no line begins with
whitespace, whose first line is a shebang line terminated by a newline,
and in which no later line begins with `#!`, the transformed script body
does not begin with `#!`. -/
theorem c9_no_leading_shebang (c : List Char)
    (hg : goodLines (splitLines c) = true)
    (hb : startsHashBang c = true)
    (hnl : '\n' ∈ c)
    (hs : noLaterShebang (splitLines c) = true) :
    startsHashBang (processContent c) = false := by
  have hJ : joinLines (splitLines c) = c := join_split c
  obtain ⟨l0, rest, hL⟩ := List.exists_cons_of_ne_nil (splitLines_ne_nil c)
  match rest, hL with
  | [], hL =>
    exfalso
    have hcl : c = l0 := by
      rw [← hJ, hL]
      rfl
    exact mem_splitLines_no_nl c l0 (hL ▸ List.mem_cons_self l0 []) (hcl ▸ hnl)
  | l1 :: ls, hL =>
    have hcj : c = l0 ++ '\n' :: joinLines (l1 :: ls) := by
      rw [← hJ, hL]
      rfl
    have hb0 : startsHashBang l0 = true :=
      startsHashBang_of_append_line (hcj ▸ hb)
    have htail : ∀ x ∈ l1 :: ls, startsHashBang x = false := by
      rw [hL] at hs
      exact noLaterShebang_tail hs
    rw [processContent_char c hg, hL, dropShebangLines, if_pos hb0]
    refine joinLines_no_hb _ ?_
    intro x hx
    exact htail x ((stripSetLines_sublist (l1 :: ls)).subset hx)

/-- Claim C9 witness: concrete shebang script whose output drops the
marker. -/
theorem c9_witness :
    startsHashBang (processContent ("#!/bin/sh\necho hi\n".toList)) = false :=
  c9_no_leading_shebang _ (by decide) (by decide) (by decide) (by decide)

/-! ### Claim C2: the path collector on empty and missing directories -/

/-- Claim C2 counterexample: when the base directory does not exist the
collector does not fail with a not-found error — each `glob` call yields
nothing (pathlib returns an empty iterator for a non-directory) and the
collector returns the empty list normally. -/
theorem c2_counterexample :
    collect none ((".sh".toList) :: (".ps1".toList) :: []) = [] := by decide

theorem collect_fold_const (basedir : Option (List (List Char))) :
    ∀ (exts : List (List Char)),
      (∀ es, basedir = some es → ∀ ext ∈ exts, glob1 es ext = []) →
      ∀ (acc : List (List Char)),
        List.foldl
          (fun files ext =>
            files ++ (match basedir with
              | none => []
              | some es => glob1 es ext)) acc exts = acc := by
  intro exts
  induction exts with
  | nil => intro _ acc; rfl
  | cons e es ih =>
    intro h acc
    have hglob : (match basedir with
        | none => ([] : List (List Char))
        | some es2 => glob1 es2 e) = [] := by
      cases hb : basedir with
      | none => rfl
      | some es2 => exact h es2 hb e (List.mem_cons_self e es)
    rw [List.foldl_cons, hglob, List.append_nil]
    exact ih (fun es2 he2 ext hext => h es2 he2 ext (List.mem_cons_of_mem e hext)) acc

/-- Claim C2 (amended): the collector returns an empty list (with no
error) both when zero entries of an existing base directory match the
extensions and when the base directory does not exist (pathlib's glob
yields nothing rather than raising in that case). -/
theorem c2_collect_empty (basedir : Option (List (List Char))) (exts : List (List Char))
    (h : ∀ n ∈ basedir.getD [], ∀ e ∈ exts, e.isSuffixOf n = false) :
    collect basedir exts = [] := by
  rw [collect]
  refine collect_fold_const basedir exts ?_ []
  intro es hes ext hext
  rw [glob1, List.filter_eq_nil_iff]
  intro n hn
  have hn2 : n ∈ basedir.getD [] := by
    rw [hes]
    simpa using hn
  simp [h n hn2 ext hext]

/-- Claim C2 witness: an existing directory listing with no matching
entries yields the empty list. -/
theorem c2_witness :
    collect (some (("README.md".toList) :: [])) ((".sh".toList) :: (".ps1".toList) :: []) = [] :=
  c2_collect_empty _ _ (by decide)

/-! ### Claim C3: duplicate application names -/

theorem lookup_append_of_none {k : List Char} : ∀ (l : List (List Char × AppEntry)),
    l.lookup k = none → ∀ l2, (l ++ l2).lookup k = l2.lookup k
  | [], _, l2 => rfl
  | p :: l, h, l2 => by
    rw [List.lookup] at h
    rw [List.cons_append, List.lookup]
    cases hk : (k == p.1) with
    | true =>
      rw [hk] at h
      exact absurd h (by simp)
    | false =>
      rw [hk] at h
      exact lookup_append_of_none l h l2

theorem countP_zero_of_lookup_none {k : List Char} : ∀ (l : List (List Char × AppEntry)),
    l.lookup k = none → l.countP (fun p => p.1 == k) = 0
  | [], _ => rfl
  | p :: l, h => by
    rw [List.lookup] at h
    cases hk : (k == p.1) with
    | true =>
      rw [hk] at h
      exact absurd h (by simp)
    | false =>
      rw [hk] at h
      rw [List.countP_cons, countP_zero_of_lookup_none l h]
      have : (p.1 == k) = false := by
        have hne : ¬(k = p.1) := by simpa using hk
        simpa using fun he => hne he.symm
      simp [this]

theorem lookup_self_singleton (k : List Char) (e : AppEntry) :
    (((k, e) :: []) : List (List Char × AppEntry)).lookup k = some e := by
  rw [List.lookup]
  simp

/-- Claim C3: if two files derive the same application name, which is new
to the accumulated map, then after processing both there is exactly one
entry for that name — the one built from the first file — the processing
of the second file leaves the map unchanged, records exactly one warning
for the second file, and does not change the processed count. -/
theorem c3_duplicate_skipped (st : ProcState) (apps : List (List Char × AppEntry))
    (f1 f2 : SFile)
    (hdup : (extract f2).app_name = (extract f1).app_name)
    (hnew : apps.lookup (extract f1).app_name = none) :
    (process_script (process_script st apps f1).1 (process_script st apps f1).2 f2).2 =
        (process_script st apps f1).2 ∧
      ((process_script st apps f1).2).lookup (extract f1).app_name =
        some (mkEntry (extract f1)) ∧
      ((process_script (process_script st apps f1).1 (process_script st apps f1).2 f2).2).countP
        (fun p => p.1 == (extract f1).app_name) = 1 ∧
      (process_script (process_script st apps f1).1
          (process_script st apps f1).2 f2).1.errors_and_warnings =
        (process_script st apps f1).1.errors_and_warnings ++
          (dupWarning (extract f2).app_name f2.name) :: [] ∧
      (process_script (process_script st apps f1).1
          (process_script st apps f1).2 f2).1.processed_script_count =
        (process_script st apps f1).1.processed_script_count := by
  have e1 : process_script st apps f1 =
      (⟨st.errors_and_warnings, st.processed_script_count + 1⟩,
        apps ++ ((extract f1).app_name, mkEntry (extract f1)) :: []) := by
    rw [process_script]
    simp [hnew]
  have e2 : (apps ++ ((extract f1).app_name, mkEntry (extract f1)) :: []).lookup
      (extract f1).app_name = some (mkEntry (extract f1)) := by
    rw [lookup_append_of_none apps hnew]
    exact lookup_self_singleton _ _
  have e3 : ((apps ++ ((extract f1).app_name, mkEntry (extract f1)) :: []).lookup
      (extract f2).app_name).isSome = true := by
    rw [hdup, e2]
    rfl
  have e4 : process_script (process_script st apps f1).1 (process_script st apps f1).2 f2 =
      (⟨st.errors_and_warnings ++ (dupWarning (extract f2).app_name f2.name) :: [],
          st.processed_script_count + 1⟩,
        apps ++ ((extract f1).app_name, mkEntry (extract f1)) :: []) := by
    rw [e1, process_script]
    simp [e3]
  refine ⟨?_, ?_, ?_, ?_, ?_⟩
  · rw [e4, e1]
  · rw [e1]
    exact e2
  · rw [e4]
    rw [List.countP_append, countP_zero_of_lookup_none apps hnew]
    simp
  · rw [e4, e1]
  · rw [e4, e1]

/-- Claim C3 witness: the two fixture files both derive application name
"foo"; processing them from a fresh state exhibits the skip, the single
entry and the single warning. -/
theorem c3_witness :
    (process_script (process_script initState [] wFile1).1
        (process_script initState [] wFile1).2 wFile2).2 =
        (process_script initState [] wFile1).2 ∧
      ((process_script initState [] wFile1).2).lookup (extract wFile1).app_name =
        some (mkEntry (extract wFile1)) ∧
      ((process_script (process_script initState [] wFile1).1
          (process_script initState [] wFile1).2 wFile2).2).countP
        (fun p => p.1 == (extract wFile1).app_name) = 1 ∧
      (process_script (process_script initState [] wFile1).1
          (process_script initState [] wFile1).2 wFile2).1.errors_and_warnings =
        (process_script initState [] wFile1).1.errors_and_warnings ++
          (dupWarning (extract wFile2).app_name wFile2.name) :: [] ∧
      (process_script (process_script initState [] wFile1).1
          (process_script initState [] wFile1).2 wFile2).1.processed_script_count =
        (process_script initState [] wFile1).1.processed_script_count :=
  c3_duplicate_skipped initState [] wFile1 wFile2 (by decide) rfl

/-! ### Claim C10: processed count equals number of entries -/

theorem count_invariant_aux : ∀ (files : List SFile) (st : ProcState)
    (apps : List (List Char × AppEntry)),
    st.processed_script_count = apps.length →
    (files.foldl (fun acc f => process_script acc.1 acc.2 f) (st, apps)).1.processed_script_count =
      ((files.foldl (fun acc f => process_script acc.1 acc.2 f) (st, apps)).2).length
  | [], st, apps, h => h
  | f :: fs, st, apps, h => by
    rw [List.foldl_cons]
    have hstep : (process_script st apps f).1.processed_script_count =
        ((process_script st apps f).2).length := by
      rw [process_script]
      by_cases hc : ((apps.lookup (extract f).app_name).isSome) = true
      · simp [hc, h]
      · simp [hc, h]
    exact count_invariant_aux fs (process_script st apps f).1 (process_script st apps f).2 hstep

/-- Claim C10: after processing any list of script paths from a fresh
processor, the processed-script count equals the number of application
entries written under "apps": every non-duplicate file increments both by
one and every skipped duplicate changes neither. -/
theorem c10_count_matches_entries (files : List SFile) :
    (process_scripts files).1.processed_script_count = ((process_scripts files).2).length := by
  rw [process_scripts]
  simp only [List.length_map]
  exact count_invariant_aux files initState [] rfl

/-! ### Word-boundary search lemmas -/

theorem bool_ne_true {b : Bool} (h : b = false) : ¬(b = true) := by
  rw [h]
  simp

theorem matchRest_self_append : ∀ (w b : List Char), matchRest w (w ++ b) = some b
  | [], b => rfl
  | c :: w, b => by
    rw [List.cons_append, matchRest, if_pos rfl]
    exact matchRest_self_append w b

theorem matchRest_some : ∀ (w s r : List Char), matchRest w s = some r → s = w ++ r
  | [], s, r, h => by
    rw [matchRest] at h
    cases h
    rfl
  | c :: w, [], r, h => by cases h
  | c :: w, d :: s, r, h => by
    rw [matchRest] at h
    by_cases hcd : c = d
    · rw [if_pos hcd] at h
      rw [List.cons_append, ← matchRest_some w s r h, hcd]
    · rw [if_neg hcd] at h
      cases h

theorem scanB_sound (p : List Char → Bool) : ∀ (s : List Char) (prev : Option Char),
    scanB p prev s = true → ∃ t, List.IsSuffix t s ∧ p t = true
  | [], prev, h => by
    rw [scanB, Bool.and_eq_true] at h
    exact ⟨[], List.suffix_refl [], h.2⟩
  | c :: r, prev, h => by
    rw [scanB, Bool.or_eq_true] at h
    rcases h with h1 | h2
    · rw [Bool.and_eq_true] at h1
      exact ⟨c :: r, List.suffix_refl _, h1.2⟩
    · obtain ⟨t, ht, hp⟩ := scanB_sound p r (some c) h2
      exact ⟨t, ht.trans (List.suffix_cons c r), hp⟩

theorem scanB_complete (p : List Char → Bool) : ∀ (a : List Char) (prev : Option Char)
    (t : List Char), p t = true → (a = [] → bOk prev = true) →
    bOk a.getLast? = true → scanB p prev (a ++ t) = true
  | [], prev, t, hp, hprev, _ => by
    rw [List.nil_append]
    have hb : bOk prev = true := hprev rfl
    match t with
    | [] =>
      rw [scanB, Bool.and_eq_true]
      exact ⟨hb, hp⟩
    | c :: r =>
      rw [scanB, Bool.or_eq_true]
      exact Or.inl (by rw [Bool.and_eq_true]; exact ⟨hb, hp⟩)
  | c :: a, prev, t, hp, _, hlast => by
    rw [List.cons_append, scanB, Bool.or_eq_true]
    refine Or.inr ?_
    refine scanB_complete p a (some c) t hp ?_ ?_
    · intro ha
      subst ha
      simpa using hlast
    · match a, hlast with
      | [], _ => rfl
      | x :: xs, hlast => simpa using hlast

theorem scanAny_of_suffix (p : List Char → Bool) : ∀ (s t : List Char),
    List.IsSuffix t s → p t = true → scanAny p s = true
  | s, t, ⟨a, ha⟩, hp => by
    induction a generalizing s with
    | nil =>
      rw [← ha, List.nil_append]
      match t, hp with
      | [], hp => exact hp
      | c :: r, hp =>
        rw [scanAny, Bool.or_eq_true]
        exact Or.inl hp
    | cons x a ih =>
      rw [← ha, List.cons_append, scanAny, Bool.or_eq_true]
      exact Or.inr (ih (a ++ t) rfl)

theorem containsSeq_of_wordSearch {w s : List Char} (h : wordSearch w s = true) :
    containsSeq w s = true := by
  obtain ⟨t, ht, hp⟩ := scanB_sound (atWord w) s none h
  rw [containsSeq]
  refine scanAny_of_suffix _ s t ht ?_
  rw [atWord] at hp
  match hm : matchRest w t with
  | some r => simp [hm]
  | none =>
    rw [hm] at hp
    cases hp

/-! ### Claim C6: the on-linux filename override -/

/-- Claim C6 counterexample: the filename `python-linux.sh` contains the
substring `on-linux`, yet the classifier does not return "any" — the
pattern `\bon-linux\b` requires a word boundary before the `o`, and the
preceding character `h` is a word character, so with empty content the
result is the default "other". -/
theorem c6_counterexample :
    containsSeq ("on-linux".toList) ("python-linux.sh".toList) = true ∧
      group_by_install_method ("python-linux.sh".toList) [] = "other" := by decide

/-- Claim C6 (amended): for every script whose filename contains
`on-linux` as a whole word — preceded by the start of the name or a
non-word character, and followed by the end of the name or a non-word
character — the classifier returns "any" regardless of the file's
content. -/
theorem c6_on_linux_any (a b content : List Char)
    (ha : bOk a.getLast? = true) (hb : bAfter b = true) :
    group_by_install_method (a ++ ("on-linux".toList) ++ b) content = "any" := by
  have hsearch : wordSearch ("on-linux".toList) (a ++ ("on-linux".toList) ++ b) = true := by
    rw [List.append_assoc, wordSearch]
    refine scanB_complete _ a none (("on-linux".toList) ++ b) ?_ (fun _ => rfl) ha
    rw [atWord, matchRest_self_append]
    exact hb
  rw [group_by_install_method, if_pos hsearch]

/-- Claim C6 witness: a hyphen is a non-word character, so
`install-on-linux.sh` triggers the override even with apt content. -/
theorem c6_witness :
    group_by_install_method
      (("install-".toList) ++ ("on-linux".toList) ++ (".sh".toList))
      ("apt install x".toList) = "any" :=
  c6_on_linux_any _ _ _ (by decide) (by decide)

/-! ### Claim C7: classifier priority order -/

/-- Claim C7: when the filename does not contain `on-linux` (so the
override cannot fire), the content patterns are checked in the fixed
order apt, pip/pip3, yum, brew, curl, first match winning, with "other"
as the default. -/
theorem c7_priority (name content : List Char)
    (h : containsSeq ("on-linux".toList) name = false) :
    (wordSearch ("apt".toList) content = true →
        group_by_install_method name content = "apt") ∧
      (wordSearch ("apt".toList) content = false → pipSearch content = true →
        group_by_install_method name content = "pip") ∧
      (wordSearch ("apt".toList) content = false → pipSearch content = false →
        wordSearch ("yum".toList) content = true →
        group_by_install_method name content = "yum") ∧
      (wordSearch ("apt".toList) content = false → pipSearch content = false →
        wordSearch ("yum".toList) content = false →
        wordSearch ("brew".toList) content = true →
        group_by_install_method name content = "homebrew") ∧
      (wordSearch ("apt".toList) content = false → pipSearch content = false →
        wordSearch ("yum".toList) content = false →
        wordSearch ("brew".toList) content = false →
        wordSearch ("curl".toList) content = true →
        group_by_install_method name content = "curl") ∧
      (wordSearch ("apt".toList) content = false → pipSearch content = false →
        wordSearch ("yum".toList) content = false →
        wordSearch ("brew".toList) content = false →
        wordSearch ("curl".toList) content = false →
        group_by_install_method name content = "other") := by
  have hW : wordSearch ("on-linux".toList) name = false := by
    cases hw : wordSearch ("on-linux".toList) name with
    | false => rfl
    | true =>
      rw [containsSeq_of_wordSearch hw] at h
      cases h
  refine ⟨?_, ?_, ?_, ?_, ?_, ?_⟩
  · intro h1
    rw [group_by_install_method, if_neg (bool_ne_true hW), if_pos h1]
  · intro h1 h2
    rw [group_by_install_method, if_neg (bool_ne_true hW), if_neg (bool_ne_true h1),
      if_pos h2]
  · intro h1 h2 h3
    rw [group_by_install_method, if_neg (bool_ne_true hW), if_neg (bool_ne_true h1),
      if_neg (bool_ne_true h2), if_pos h3]
  · intro h1 h2 h3 h4
    rw [group_by_install_method, if_neg (bool_ne_true hW), if_neg (bool_ne_true h1),
      if_neg (bool_ne_true h2), if_neg (bool_ne_true h3), if_pos h4]
  · intro h1 h2 h3 h4 h5
    rw [group_by_install_method, if_neg (bool_ne_true hW), if_neg (bool_ne_true h1),
      if_neg (bool_ne_true h2), if_neg (bool_ne_true h3), if_neg (bool_ne_true h4),
      if_pos h5]
  · intro h1 h2 h3 h4 h5
    rw [group_by_install_method, if_neg (bool_ne_true hW), if_neg (bool_ne_true h1),
      if_neg (bool_ne_true h2), if_neg (bool_ne_true h3), if_neg (bool_ne_true h4),
      if_neg (bool_ne_true h5)]

/-- Claim C7 witness: a script containing both an `apt` token and a
`curl` token classifies as "apt". -/
theorem c7_witness :
    wordSearch ("curl".toList) ("apt install foo; curl -O bar".toList) = true ∧
      group_by_install_method ("x.sh".toList) ("apt install foo; curl -O bar".toList) = "apt" :=
  ⟨by decide, (c7_priority ("x.sh".toList) ("apt install foo; curl -O bar".toList)
    (by decide)).1 (by decide)⟩

/-! ### Claim C8: application-name derivation -/

/-- Claim C8: the derived application name is the part of the filename
stem after the first hyphen when the stem contains one, and the whole
stem otherwise. -/
theorem c8_app_name :
    (∀ (name pre post : List Char), stemOf name = pre ++ '-' :: post →
        (∀ c ∈ pre, ¬(c = '-')) → appNameOfStem (stemOf name) = post) ∧
      (∀ name : List Char, (stemOf name).contains '-' = false →
        appNameOfStem (stemOf name) = stemOf name) := by
  constructor
  · intro name pre post hsplit hpre
    rw [hsplit, appNameOfStem, splitFirst]
    have hcont : (pre ++ '-' :: post).contains '-' = true := by
      simp [List.contains]
    rw [if_pos hcont]
    have htake : (pre ++ '-' :: post).takeWhile (fun c => !(c == '-')) = pre := by
      refine takeWhile_all_append pre ?_ '-' (by simp) post
      intro c hc
      simpa using hpre c hc
    have hdrop : (pre ++ '-' :: post).dropWhile (fun c => !(c == '-')) = '-' :: post := by
      refine dropWhile_all_append pre ?_ '-' (by simp) post
      intro c hc
      simpa using hpre c hc
    rw [htake, hdrop]
    rfl
  · intro name hno
    rw [appNameOfStem, splitFirst, if_neg (bool_ne_true hno)]

/-- Claim C8 witness: `install-foo.sh` yields "foo"; `plainname.sh`
yields "plainname". -/
theorem c8_witness :
    appNameOfStem (stemOf ("install-foo.sh".toList)) = ("foo".toList) ∧
      appNameOfStem (stemOf ("plainname.sh".toList)) = ("plainname".toList) :=
  ⟨c8_app_name.1 _ ("install".toList) ("foo".toList) (by decide) (by decide),
    c8_app_name.2 _ (by decide)⟩

end Richwar
